import Mathlib

/-
Verification of the codex-manager core: the sessions scanner
(internal/sessions/index.go), the session parser (parser.go), and the
search index (internal/search/index.go), shallowly embedded in Lean 4.

Go strings are modelled as lists of characters (`Str`); `time.Time`
values as integers on the nanosecond timeline (`Equal` is `=`, `After`
is `>`); Go maps as total functions updated pointwise; file-system
effects (directory walks, `os.Stat`, file reads) as explicit input data
describing each call's outcome.
-/

namespace CodexManager

/-- Go strings modelled as character lists. -/
abbrev Str := List Char

/-- Convert a Lean string literal to the `Str` model. -/
def str (s : String) : Str := s.toList

/-- Go `unicode.IsSpace` on the ASCII range (the only characters the
repository's trimming behaviour is exercised on). -/
def isSpaceGo (c : Char) : Bool :=
  c = ' ' || c = '\t' || c = '\n' || c = '\r' || c = '\x0b' || c = '\x0c'

/-- Go `strings.TrimSpace`. -/
def trimGo (s : Str) : Str :=
  ((s.dropWhile isSpaceGo).reverse.dropWhile isSpaceGo).reverse

/-- Go `strings.ToLower` (ASCII case mapping). -/
def toLowerGo (s : Str) : Str := s.map Char.toLower

/-- Go string comparison `a < b` (lexicographic). -/
def strLt : Str → Str → Bool
  | [], [] => false
  | [], _ :: _ => true
  | _ :: _, [] => false
  | a :: as, b :: bs => if a < b then true else if b < a then false else strLt as bs

/-- Go `strings.HasSuffix`. -/
def hasSuffixGo (s suffix : Str) : Bool := suffix.isSuffixOf s

/-- Helper for Go `strings.Index`: scan for the first position at or
after `i` where `needle` starts, returning that position. -/
def strIndexFrom (needle : Str) : Str → Nat → Option Nat
  | [], i => if needle.isEmpty then some i else none
  | c :: rest, i =>
    if needle.isPrefixOf (c :: rest) then some i else strIndexFrom needle rest (i + 1)

/-- Go `strings.Index` (`-1` modelled as `none`). -/
def strIndex (hay needle : Str) : Option Nat := strIndexFrom needle hay 0

/-- Pointwise update of a map modelled as a total function. -/
def updFn {α β : Type} [DecidableEq α] (m : α → β) (k : α) (v : β) : α → β :=
  fun x => if x = k then v else m x

/-! ## Sessions scanner data model (internal/sessions/index.go) -/

/-- Go `DateKey`: a sessions date folder. -/
structure DateKey where
  Year : Str
  Month : Str
  Day : Str
deriving DecidableEq, Repr

/-- Go `DateKey.String()`: "year-month-day". -/
def dateString (d : DateKey) : Str := d.Year ++ ('-' :: d.Month) ++ ('-' :: d.Day)

/-- Go `DateKey.Path()`: `path.Join(year, month, day)`; the segments the
scanner produces are slash-free and non-empty, where `path.Join` is plain
joining with "/". -/
def datePath (d : DateKey) : Str := d.Year ++ ('/' :: d.Month) ++ ('/' :: d.Day)

/-- Go `path.Join(datePath, name)` for slash-free non-empty segments. -/
def joinPath (a b : Str) : Str := a ++ ('/' :: b)

/-- Go `isDigits`. -/
def isDigits (value : Str) : Bool := value.all fun ch => '0' ≤ ch && ch ≤ '9'

/-- Go `ParseDate` (the `(DateKey, bool)` pair modelled as `Option`). -/
def ParseDate (year month day : Str) : Option DateKey :=
  if year.length ≠ 4 ∨ month.length ≠ 2 ∨ day.length ≠ 2 then none
  else if ¬(isDigits year ∧ isDigits month ∧ isDigits day) then none
  else some { Year := year, Month := month, Day := day }

/-- Decimal value of a digit string. -/
def digitsVal (s : Str) : Nat := s.foldl (fun acc c => acc * 10 + (c.toNat - 48)) 0

/-- Go `strconv.Atoi` as used by `dateGreater`: the value for a decimal
string with optional sign, and `0` on a syntax error (whose `err` the
caller discards).  Overflow saturation is not modelled; the scanner only
applies it to at-most-4-digit strings. -/
def atoiGo (s : Str) : Int :=
  match s with
  | '-' :: rest => if rest ≠ [] ∧ isDigits rest then -(digitsVal rest : Int) else 0
  | '+' :: rest => if rest ≠ [] ∧ isDigits rest then (digitsVal rest : Int) else 0
  | _ => if s ≠ [] ∧ isDigits s then (digitsVal s : Int) else 0

/-- Go `dateGreater`. -/
def dateGreater (a b : DateKey) : Bool :=
  let ya := atoiGo a.Year
  let yb := atoiGo b.Year
  if ya ≠ yb then decide (ya > yb)
  else
    let ma := atoiGo a.Month
    let mb := atoiGo b.Month
    if ma ≠ mb then decide (ma > mb)
    else
      let da := atoiGo a.Day
      let db := atoiGo b.Day
      if da ≠ db then decide (da > db)
      else strLt (dateString b) (dateString a)

/-- Go `SessionMeta`. -/
structure SessionMeta where
  ID : Str
  Timestamp : Str
  Cwd : Str
  Originator : Str
  CliVersion : Str
  Instructions : Str
deriving DecidableEq, Repr

/-- Go `SessionFile` (`Meta` is the nilable pointer). -/
structure SessionFile where
  Date : DateKey
  Name : Str
  Path : Str
  Size : Int
  ModTime : Int
  Meta : Option SessionMeta
deriving DecidableEq, Repr

/-- Go `UnknownCwd`. -/
def UnknownCwd : Str := str "(unknown)"

/-- Go `NormalizeCwd`. -/
def NormalizeCwd (value : Str) : Str :=
  if trimGo value = [] then UnknownCwd else value

/-- Go `CwdForFile`. -/
def CwdForFile (file : SessionFile) : Str :=
  match file.Meta with
  | some meta => NormalizeCwd meta.Cwd
  | none => UnknownCwd

/-- Go comparator passed to `sort.Slice` for per-date file lists:
modification time descending, name ascending on equal times. -/
def fileLess (a b : SessionFile) : Bool :=
  if a.ModTime = b.ModTime then strLt a.Name b.Name else decide (a.ModTime > b.ModTime)

/-- The non-strict order induced by `fileLess`; `sort.Slice` guarantees
its output is sorted by it. -/
def fileLe (a b : SessionFile) : Prop := fileLess b a = false

instance : DecidableRel fileLe := fun a b => by unfold fileLe; infer_instance

/-- Go `sort.Slice(files, fileLess)` modelled as insertion sort with
respect to the induced non-strict order (the comparator is a strict weak
order, so any correct sort produces a `fileLe`-sorted permutation). -/
def sortFilesGo (files : List SessionFile) : List SessionFile :=
  List.insertionSort fileLe files

/-- The non-strict order induced by `dateGreater` (sorting comparator of
`Dates()`). -/
def dateLe (a b : DateKey) : Prop := dateGreater b a = false

instance : DecidableRel dateLe := fun a b => by unfold dateLe; infer_instance

/-- Go `sort.Slice(keys, dateGreater)` in `Dates()`, modelled as
insertion sort over the map's key list (Go map iteration order is
arbitrary, so the key list is a parameter). -/
def Dates (keys : List DateKey) : List DateKey :=
  List.insertionSort dateLe keys

/-! ## Directory walk and `Index.Refresh` -/

/-- One invocation of the `filepath.WalkDir` callback in walk order. -/
structure WalkEntry where
  /-- The `err` argument handed to the callback is non-nil. -/
  visitErr : Bool
  /-- `d.IsDir()`. -/
  isDir : Bool
  /-- `d.Name()`. -/
  name : Str
  /-- `filepath.Rel(baseDir, fullPath)` converted to slash form and split
  on "/"; `none` models a `Rel` error. -/
  rel : Option (List Str)
  /-- `d.Info()` fails. -/
  infoErr : Bool
  /-- `info.Size()`. -/
  size : Int
  /-- `info.ModTime()`. -/
  modTime : Int
  /-- The `fullPath` argument. -/
  fullPath : Str
  /-- `ParseSessionMeta(fullPath)` outcome; `none` both when it errors
  (the scanner then sets `meta = nil`) and when no header exists. -/
  meta : Option SessionMeta

/-- Errors the walk callback can return (each aborts the walk). -/
inductive WalkError where
  | visitFailed
  | relFailed
  | infoFailed
deriving DecidableEq, Repr

/-- The three maps `Refresh` builds aside before publishing. -/
structure ScanMaps where
  byDate : DateKey → List SessionFile
  byName : Str → Option SessionFile
  byCwd : Str → List SessionFile

/-- The freshly allocated empty maps at the start of `Refresh`. -/
def emptyScanMaps : ScanMaps :=
  { byDate := fun _ => [], byName := fun _ => none, byCwd := fun _ => [] }

/-- The body of the `filepath.WalkDir` callback in `Index.Refresh`. -/
def walkVisit (m : ScanMaps) (e : WalkEntry) : Except WalkError ScanMaps :=
  if e.visitErr then .error .visitFailed
  else if e.isDir then .ok m
  else if ¬hasSuffixGo e.name (str ".jsonl") then .ok m
  else
    match e.rel with
    | none => .error .relFailed
    | some parts =>
      match parts with
      | [y, mo, d, fname] =>
        match ParseDate y mo d with
        | none => .ok m
        | some date =>
          if e.infoErr then .error .infoFailed
          else
            let file : SessionFile :=
              { Date := date, Name := fname, Path := e.fullPath,
                Size := e.size, ModTime := e.modTime, Meta := e.meta }
            let cw := CwdForFile file
            .ok { byDate := updFn m.byDate date (m.byDate date ++ [file]),
                  byName := updFn m.byName (joinPath (datePath date) fname) (some file),
                  byCwd := updFn m.byCwd cw (m.byCwd cw ++ [file]) }
      | _ => .ok m

/-- `filepath.WalkDir`: visits entries in order, aborting at the first
callback error. -/
def runWalk : ScanMaps → List WalkEntry → Except WalkError ScanMaps
  | m, [] => .ok m
  | m, e :: rest =>
    match walkVisit m e with
    | .error err => .error err
    | .ok m2 => runWalk m2 rest

/-- The state of a Go `sessions.Index` (the published snapshot). -/
structure IndexState where
  baseDir : Str
  byDate : DateKey → List SessionFile
  byName : Str → Option SessionFile
  byCwd : Str → List SessionFile

/-- Errors `Index.Refresh` can return. -/
inductive RefreshError where
  | emptyBaseDir
  | statFailed
  | walkFailed (e : WalkError)
deriving DecidableEq, Repr

/-- The file-system state one `Refresh` call observes. -/
structure FsView where
  /-- `os.Stat(baseDir)` fails. -/
  statErr : Bool
  /-- The `filepath.WalkDir` callback invocations, in walk order. -/
  walk : List WalkEntry

/-- Go `Index.Refresh`: returns the error (if any) together with the
state left behind (the Go method mutates `idx` only in the final
lock-protected swap). -/
def Refresh (st : IndexState) (fs : FsView) : Option RefreshError × IndexState :=
  if st.baseDir = [] then (some .emptyBaseDir, st)
  else if fs.statErr then (some .statFailed, st)
  else
    match runWalk emptyScanMaps fs.walk with
    | .error e => (some (.walkFailed e), st)
    | .ok m =>
      (none, { st with byDate := fun k => sortFilesGo (m.byDate k),
                       byName := m.byName, byCwd := m.byCwd })

/-- Go `Index.SessionsByDate` (the defensive copy has the same value as
the stored list). -/
def SessionsByDate (st : IndexState) (date : DateKey) : List SessionFile :=
  st.byDate date

/-- Go `Index.SessionsByCwd`. -/
def SessionsByCwd (st : IndexState) (cwd : Str) : List SessionFile :=
  st.byCwd (NormalizeCwd cwd)

/-- Claim C1: `Refresh` returns an error exactly when the base directory
is unset (empty) or unreadable (`os.Stat` fails) or the directory walk
reports an I/O error; in every error case the previously published
snapshot (all three maps, indeed the whole index state) is unchanged;
and only on success (all guards passed, walk succeeded with maps `m`)
are the three freshly built maps — per-date lists sorted — published
together in the single final swap. -/
theorem refresh_error_atomicity (st : IndexState) (fs : FsView) :
    ((Refresh st fs).1 ≠ none ↔
      st.baseDir = [] ∨ fs.statErr = true ∨ ∃ e, runWalk emptyScanMaps fs.walk = .error e)
    ∧ ((Refresh st fs).1 ≠ none → (Refresh st fs).2 = st)
    ∧ (st.baseDir ≠ [] → fs.statErr = false →
        ∀ m, runWalk emptyScanMaps fs.walk = .ok m →
          (Refresh st fs).1 = none ∧
          (Refresh st fs).2.byDate = (fun k => sortFilesGo (m.byDate k)) ∧
          (Refresh st fs).2.byName = m.byName ∧
          (Refresh st fs).2.byCwd = m.byCwd ∧
          (Refresh st fs).2.baseDir = st.baseDir) := by
  refine ⟨?_, ?_, ?_⟩
  · by_cases hb : st.baseDir = []
    · simp [Refresh, hb]
    · by_cases hs : fs.statErr = true
      · simp [Refresh, hb, hs]
      · cases hw : runWalk emptyScanMaps fs.walk with
        | error e => simp [Refresh, hb, hs, hw]
        | ok m => simp [Refresh, hb, hs, hw]
  · intro h
    by_cases hb : st.baseDir = []
    · simp [Refresh, hb]
    · by_cases hs : fs.statErr = true
      · simp [Refresh, hb, hs]
      · cases hw : runWalk emptyScanMaps fs.walk with
        | error e => simp [Refresh, hb, hs, hw]
        | ok m => simp [Refresh, hb, hs, hw] at h
  · intro hb hs m hw
    simp [Refresh, hb, hs, hw]

/-- An index whose base directory is unset. -/
def st0 : IndexState :=
  { baseDir := [], byDate := fun _ => [], byName := fun _ => none, byCwd := fun _ => [] }

/-- An index with a set base directory. -/
def st1 : IndexState :=
  { baseDir := str "/s", byDate := fun _ => [], byName := fun _ => none, byCwd := fun _ => [] }

/-- A healthy file-system view with an empty walk. -/
def fs0 : FsView := { statErr := false, walk := [] }

/-- Witness for C1: with an unset base directory the state is unchanged,
and with a set base directory and healthy (empty) walk the refresh
succeeds. -/
theorem refresh_error_atomicity_witness :
    (Refresh st0 fs0).2 = st0 ∧ (Refresh st1 fs0).1 = none :=
  ⟨(refresh_error_atomicity st0 fs0).2.1 (by simp [Refresh, st0]),
   ((refresh_error_atomicity st1 fs0).2.2 (by simp [st1, str])
      (by simp [fs0]) emptyScanMaps rfl).1⟩

/-! ## Order facts about Go string comparison -/

theorem strLt_irrefl (a : Str) : strLt a a = false := by
  induction a with
  | nil => rfl
  | cons c cs ih => simp [strLt, ih]

theorem strLt_asymm : ∀ a b : Str, strLt a b = true → strLt b a = false := by
  intro a
  induction a with
  | nil =>
    intro b h
    cases b with
    | nil => simp [strLt] at h
    | cons d ds => rfl
  | cons c cs ih =>
    intro b h
    cases b with
    | nil => simp [strLt] at h
    | cons d ds =>
      by_cases h1 : c < d
      · have h2 : ¬d < c := asymm h1
        simp [strLt, h1, h2]
      · by_cases h2 : d < c
        · simp [strLt, h1, h2] at h
        · have hcd : c = d := le_antisymm (le_of_not_lt h2) (le_of_not_lt h1)
          subst hcd
          simp [strLt, h1] at h ⊢
          exact ih ds h

theorem strLt_trans :
    ∀ a b c : Str, strLt a b = true → strLt b c = true → strLt a c = true := by
  intro a
  induction a with
  | nil =>
    intro b c hab hbc
    cases b with
    | nil => simp [strLt] at hab
    | cons d ds =>
      cases c with
      | nil => simp [strLt] at hbc
      | cons e es => rfl
  | cons x xs ih =>
    intro b c hab hbc
    cases b with
    | nil => simp [strLt] at hab
    | cons y ys =>
      cases c with
      | nil => simp [strLt] at hbc
      | cons z zs =>
        by_cases hxy : x < y
        · by_cases hyz : y < z
          · simp [strLt, lt_trans hxy hyz]
          · by_cases hzy : z < y
            · simp [strLt, hyz, hzy] at hbc
            · have : y = z := le_antisymm (le_of_not_lt hzy) (le_of_not_lt hyz)
              subst this
              simp [strLt, hxy]
        · by_cases hyx : y < x
          · simp [strLt, hxy, hyx] at hab
          · have hx : x = y := le_antisymm (le_of_not_lt hyx) (le_of_not_lt hxy)
            subst hx
            simp [strLt, lt_irrefl] at hab
            by_cases hyz : x < z
            · simp [strLt, hyz]
            · by_cases hzy : z < x
              · simp [strLt, hyz, hzy] at hbc
              · have : x = z := le_antisymm (le_of_not_lt hzy) (le_of_not_lt hyz)
                subst this
                simp [strLt, lt_irrefl] at hbc ⊢
                exact ih ys zs hab hbc

theorem strLt_total : ∀ a b : Str, a ≠ b → strLt a b = true ∨ strLt b a = true := by
  intro a
  induction a with
  | nil =>
    intro b h
    cases b with
    | nil => exact absurd rfl h
    | cons d ds => exact Or.inl rfl
  | cons c cs ih =>
    intro b h
    cases b with
    | nil => exact Or.inr rfl
    | cons d ds =>
      by_cases h1 : c < d
      · exact Or.inl (by simp [strLt, h1])
      · by_cases h2 : d < c
        · exact Or.inr (by simp [strLt, h2, asymm h2])
        · have hcd : c = d := le_antisymm (le_of_not_lt h2) (le_of_not_lt h1)
          subst hcd
          have hne : cs ≠ ds := fun hcontra => h (by rw [hcontra])
          rcases ih ds hne with h3 | h3
          · exact Or.inl (by simp [strLt, h3])
          · exact Or.inr (by simp [strLt, h3])

/-- Negative transitivity of Go string comparison. -/
theorem strLt_neg_trans (a b c : Str) (h1 : strLt a b = false) (h2 : strLt b c = false) :
    strLt a c = false := by
  by_cases hac : strLt a c = true
  · by_cases hab : a = b
    · subst hab; rw [hac] at h2; cases h2
    · rcases strLt_total a b hab with h | h
      · rw [h] at h1; cases h1
      · have := strLt_trans b a c h hac
        rw [this] at h2; cases h2
  · exact eq_false_of_ne_true hac

/-! ## Sortedness of per-date file lists -/

/-- Characterization of a false comparator result. -/
theorem fileLess_eq_false_iff (a b : SessionFile) :
    fileLess a b = false ↔
      (a.ModTime = b.ModTime ∧ strLt a.Name b.Name = false) ∨ a.ModTime < b.ModTime := by
  unfold fileLess
  by_cases h : a.ModTime = b.ModTime
  · simp [h]
  · have : ¬a.ModTime < b.ModTime ∨ a.ModTime < b.ModTime := em' _
    constructor
    · intro hfalse
      simp [h] at hfalse
      right; omega
    · intro hcase
      rcases hcase with ⟨he, _⟩ | hlt
      · exact absurd he h
      · simp [h]; omega

instance : IsTotal SessionFile fileLe := by
  constructor
  intro a b
  unfold fileLe
  rw [fileLess_eq_false_iff, fileLess_eq_false_iff]
  by_cases h : a.ModTime = b.ModTime
  · by_cases hn : strLt b.Name a.Name = true
    · exact Or.inr (Or.inl ⟨h, strLt_asymm _ _ hn⟩)
    · exact Or.inl (Or.inl ⟨h.symm, eq_false_of_ne_true hn⟩)
  · rcases lt_or_gt_of_ne h with hlt | hgt
    · exact Or.inr (Or.inr hlt)
    · exact Or.inl (Or.inr hgt)

instance : IsTrans SessionFile fileLe := by
  constructor
  intro a b c h1 h2
  unfold fileLe at h1 h2 ⊢
  rw [fileLess_eq_false_iff] at h1 h2 ⊢
  rcases h1 with ⟨he1, hs1⟩ | hlt1
  · rcases h2 with ⟨he2, hs2⟩ | hlt2
    · exact Or.inl ⟨he2.trans he1, strLt_neg_trans _ _ _ hs2 hs1⟩
    · exact Or.inr (he1 ▸ hlt2)
  · rcases h2 with ⟨he2, _⟩ | hlt2
    · exact Or.inr (he2 ▸ hlt1)
    · exact Or.inr (lt_trans hlt2 hlt1)

/-- The ordering the spec claims for per-date (and per-cwd) file lists:
modification time descending, filename ascending on ties. -/
def fileOrdClaim (a b : SessionFile) : Prop :=
  a.ModTime > b.ModTime ∨ (a.ModTime = b.ModTime ∧ strLt b.Name a.Name = false)

instance : DecidableRel fileOrdClaim := fun a b => by unfold fileOrdClaim; infer_instance

theorem fileLe_iff_fileOrdClaim (a b : SessionFile) : fileLe a b ↔ fileOrdClaim a b := by
  unfold fileOrdClaim
  unfold fileLe
  rw [fileLess_eq_false_iff]
  constructor
  · intro h
    rcases h with ⟨he, hs⟩ | hlt
    · exact Or.inr ⟨he.symm, hs⟩
    · exact Or.inl hlt
  · intro h
    rcases h with hgt | ⟨he, hs⟩
    · exact Or.inr hgt
    · exact Or.inl ⟨he.symm, hs⟩

theorem sortFilesGo_sorted (l : List SessionFile) :
    List.Pairwise fileOrdClaim (sortFilesGo l) := by
  have h := List.sorted_insertionSort fileLe l
  exact List.Pairwise.imp (fun hab => (fileLe_iff_fileOrdClaim _ _).mp hab) h

/-- Claim C4 (amended): after a successful `Refresh`, `SessionsByDate`
returns its file list ordered by modification time descending with
filename ascending breaking ties, for every date key.  (The original
claim also asserted this ordering for `SessionsByCwd`; that part is
refuted below — `Refresh` sorts only the per-date lists, the per-cwd
lists stay in directory-walk order.) -/
theorem sessions_by_date_sorted (st : IndexState) (fs : FsView)
    (hok : (Refresh st fs).1 = none) :
    ∀ date, List.Pairwise fileOrdClaim (SessionsByDate (Refresh st fs).2 date) := by
  intro date
  unfold Refresh at hok ⊢
  by_cases hb : st.baseDir = []
  · simp [hb] at hok
  · by_cases hs : fs.statErr = true
    · simp [hb, hs] at hok
    · cases hw : runWalk emptyScanMaps fs.walk with
      | error e => simp [hb, hs, hw] at hok
      | ok m =>
        simp only [hb, hs, hw, if_neg, Bool.false_eq_true, if_false]
        exact sortFilesGo_sorted (m.byDate date)

/-- Working-directory metadata shared by the counterexample files. -/
def metaW : SessionMeta :=
  { ID := str "id", Timestamp := [], Cwd := str "/w", Originator := [],
    CliVersion := [], Instructions := [] }

/-- Walk entry for an older file visited first (walks are lexical, so
"a.jsonl" precedes "b.jsonl"). -/
def waA : WalkEntry :=
  { visitErr := false, isDir := false, name := str "a.jsonl",
    rel := some [str "2026", str "01", str "09", str "a.jsonl"],
    infoErr := false, size := 1, modTime := 1,
    fullPath := str "/s/2026/01/09/a.jsonl", meta := some metaW }

/-- Walk entry for a newer file visited second. -/
def waB : WalkEntry :=
  { visitErr := false, isDir := false, name := str "b.jsonl",
    rel := some [str "2026", str "01", str "09", str "b.jsonl"],
    infoErr := false, size := 1, modTime := 2,
    fullPath := str "/s/2026/01/09/b.jsonl", meta := some metaW }

/-- A healthy view with two same-cwd files, older one visited first. -/
def fsC : FsView := { statErr := false, walk := [waA, waB] }

/-- Counterexample to claim C4 as stated: after this successful refresh
the `SessionsByCwd` list for "/w" is in walk order (older file first),
not modification-time-descending order. -/
theorem sessionsByCwd_unsorted_cex :
    (Refresh st1 fsC).1 = none ∧
    ¬ List.Pairwise fileOrdClaim (SessionsByCwd (Refresh st1 fsC).2 (str "/w")) := by
  constructor
  · decide
  · decide

/-- The counterexample's date key. -/
def dkC : DateKey := { Year := str "2026", Month := str "01", Day := str "09" }

/-- Witness for the amended C4 theorem at the concrete refresh `fsC`. -/
theorem sessions_by_date_sorted_witness :
    List.Pairwise fileOrdClaim (SessionsByDate (Refresh st1 fsC).2 dkC) :=
  sessions_by_date_sorted st1 fsC (by decide) dkC

/-! ## `Dates()` ordering -/

/-- A key names a valid date directory (`ParseDate` accepts its
segments and returns it unchanged). -/
def ValidDate (k : DateKey) : Prop := ParseDate k.Year k.Month k.Day = some k

instance : DecidablePred ValidDate := fun k => by unfold ValidDate; infer_instance

/-- The strictly-descending date order the spec claims: numeric on
(year, month, day), Go string comparison breaking ties. -/
def specDateGt (a b : DateKey) : Prop :=
  atoiGo a.Year > atoiGo b.Year ∨ (atoiGo a.Year = atoiGo b.Year ∧
   (atoiGo a.Month > atoiGo b.Month ∨ (atoiGo a.Month = atoiGo b.Month ∧
    (atoiGo a.Day > atoiGo b.Day ∨ (atoiGo a.Day = atoiGo b.Day ∧
     strLt (dateString b) (dateString a) = true)))))

theorem dateGreater_true_iff (a b : DateKey) :
    dateGreater a b = true ↔ specDateGt a b := by
  unfold dateGreater specDateGt
  by_cases hy : atoiGo a.Year = atoiGo b.Year
  · by_cases hm : atoiGo a.Month = atoiGo b.Month
    · by_cases hd : atoiGo a.Day = atoiGo b.Day
      · simp [hy, hm, hd]
      · simp [hy, hm, hd]
    · simp [hy, hm]
  · simp [hy]

theorem specDateGt_asymm (a b : DateKey) (h1 : specDateGt a b) (h2 : specDateGt b a) :
    False := by
  unfold specDateGt at h1 h2
  rcases h1 with h1 | ⟨ey1, h1⟩ <;> rcases h2 with h2 | ⟨ey2, h2⟩ <;> try omega
  rcases h1 with h1 | ⟨em1, h1⟩ <;> rcases h2 with h2 | ⟨em2, h2⟩ <;> try omega
  rcases h1 with h1 | ⟨ed1, h1⟩ <;> rcases h2 with h2 | ⟨ed2, h2⟩ <;> try omega
  rw [strLt_asymm _ _ h1] at h2
  cases h2

theorem specDateGt_trans (a b c : DateKey) (h1 : specDateGt a b) (h2 : specDateGt b c) :
    specDateGt a c := by
  unfold specDateGt at h1 h2 ⊢
  rcases h1 with h1 | ⟨ey1, h1⟩
  · rcases h2 with h2 | ⟨ey2, h2⟩ <;> (left; omega)
  · rcases h2 with h2 | ⟨ey2, h2⟩
    · left; omega
    · refine Or.inr ⟨by omega, ?_⟩
      rcases h1 with h1 | ⟨em1, h1⟩
      · rcases h2 with h2 | ⟨em2, h2⟩ <;> (left; omega)
      · rcases h2 with h2 | ⟨em2, h2⟩
        · left; omega
        · refine Or.inr ⟨by omega, ?_⟩
          rcases h1 with h1 | ⟨ed1, h1⟩
          · rcases h2 with h2 | ⟨ed2, h2⟩ <;> (left; omega)
          · rcases h2 with h2 | ⟨ed2, h2⟩
            · left; omega
            · exact Or.inr ⟨by omega, strLt_trans _ _ _ h2 h1⟩

/-- Trichotomy for the date comparison: two keys compare one way or the
other, or all four comparison components coincide. -/
theorem specDateGt_trichotomy (a b : DateKey) :
    specDateGt a b ∨ specDateGt b a ∨
      (atoiGo a.Year = atoiGo b.Year ∧ atoiGo a.Month = atoiGo b.Month ∧
       atoiGo a.Day = atoiGo b.Day ∧ dateString a = dateString b) := by
  unfold specDateGt
  by_cases hy : atoiGo a.Year = atoiGo b.Year
  · by_cases hm : atoiGo a.Month = atoiGo b.Month
    · by_cases hd : atoiGo a.Day = atoiGo b.Day
      · by_cases hs : dateString a = dateString b
        · exact Or.inr (Or.inr ⟨hy, hm, hd, hs⟩)
        · rcases strLt_total _ _ hs with h | h
          · exact Or.inr (Or.inl (Or.inr ⟨hy.symm, Or.inr ⟨hm.symm, Or.inr ⟨hd.symm, h⟩⟩⟩))
          · exact Or.inl (Or.inr ⟨hy, Or.inr ⟨hm, Or.inr ⟨hd, h⟩⟩⟩)
      · rcases lt_or_gt_of_ne hd with h | h
        · exact Or.inr (Or.inl (Or.inr ⟨hy.symm, Or.inr ⟨hm.symm, Or.inl h⟩⟩))
        · exact Or.inl (Or.inr ⟨hy, Or.inr ⟨hm, Or.inl h⟩⟩)
    · rcases lt_or_gt_of_ne hm with h | h
      · exact Or.inr (Or.inl (Or.inr ⟨hy.symm, Or.inl h⟩))
      · exact Or.inl (Or.inr ⟨hy, Or.inl h⟩)
  · rcases lt_or_gt_of_ne hy with h | h
    · exact Or.inr (Or.inl (Or.inl h))
    · exact Or.inl (Or.inl h)

theorem dateGreater_false_iff (a b : DateKey) :
    dateGreater a b = false ↔ ¬specDateGt a b := by
  rw [← dateGreater_true_iff]
  cases h : dateGreater a b <;> simp

instance : IsTotal DateKey dateLe := by
  constructor
  intro a b
  unfold dateLe
  rw [dateGreater_false_iff, dateGreater_false_iff]
  by_cases h : specDateGt b a
  · exact Or.inr fun h2 => specDateGt_asymm _ _ h h2
  · exact Or.inl h

instance : IsTrans DateKey dateLe := by
  constructor
  intro a b c h1 h2
  unfold dateLe at h1 h2 ⊢
  rw [dateGreater_false_iff] at h1 h2 ⊢
  intro hca
  rcases specDateGt_trichotomy c b with h | h | ⟨e1, e2, e3, e4⟩
  · exact h2 h
  · exact h1 (specDateGt_trans b c a h hca)
  · apply h1
    unfold specDateGt at hca ⊢
    rw [e1, e2, e3, e4] at hca
    exact hca

theorem validDate_lengths (k : DateKey) (h : ValidDate k) :
    k.Year.length = 4 ∧ k.Month.length = 2 ∧ k.Day.length = 2 := by
  unfold ValidDate ParseDate at h
  by_cases h1 : k.Year.length ≠ 4 ∨ k.Month.length ≠ 2 ∨ k.Day.length ≠ 2
  · simp [h1] at h
  · push_neg at h1; exact h1

/-- On valid keys the rendered date string determines the key (all
segments have fixed widths). -/
theorem dateString_inj (a b : DateKey) (ha : ValidDate a) (hb : ValidDate b)
    (h : dateString a = dateString b) : a = b := by
  obtain ⟨hy1, hm1, hd1⟩ := validDate_lengths a ha
  obtain ⟨hy2, hm2, hd2⟩ := validDate_lengths b hb
  unfold dateString at h
  have houter := List.append_inj h (by simp [hy1, hy2, hm1, hm2])
  have hinner := List.append_inj houter.1 (by simp [hy1, hy2])
  have hM : a.Month = b.Month := by
    have := hinner.2
    simpa using this
  have hD : a.Day = b.Day := by
    have := houter.2
    simpa using this
  cases a; cases b
  simp_all

/-- Claim C8: `Dates()` returns all indexed date keys (a permutation of
the map's key set) in strictly descending order, compared numerically on
(year, month, day) with string comparison breaking ties, for any input
set of valid date directories. -/
theorem dates_strictly_descending (keys : List DateKey)
    (hv : ∀ k ∈ keys, ValidDate k) (hnd : keys.Nodup) :
    (Dates keys).Perm keys ∧ List.Pairwise specDateGt (Dates keys) := by
  have hperm : (Dates keys).Perm keys := List.perm_insertionSort dateLe keys
  refine ⟨hperm, ?_⟩
  have hsorted : List.Pairwise dateLe (Dates keys) := List.sorted_insertionSort dateLe keys
  have hnd' : (Dates keys).Nodup := (hperm.nodup_iff).mpr hnd
  have hcomb := List.Pairwise.and hsorted hnd'
  refine List.Pairwise.imp_of_mem ?_ hcomb
  intro a b ha hb hab
  obtain ⟨hle, hne⟩ := hab
  have hva : ValidDate a := hv a (hperm.mem_iff.mp ha)
  have hvb : ValidDate b := hv b (hperm.mem_iff.mp hb)
  unfold dateLe at hle
  rw [dateGreater_false_iff] at hle
  rcases specDateGt_trichotomy a b with h | h | ⟨_, _, _, e4⟩
  · exact h
  · exact absurd h hle
  · exact absurd (dateString_inj a b hva hvb e4) hne

/-- A second concrete date key, one day earlier than `dkC`. -/
def dkD : DateKey := { Year := str "2025", Month := str "12", Day := str "31" }

/-- Witness for C8 on a concrete two-key set given in ascending order. -/
theorem dates_strictly_descending_witness :
    (Dates [dkD, dkC]).Perm [dkD, dkC] ∧ List.Pairwise specDateGt (Dates [dkD, dkC]) :=
  dates_strictly_descending [dkD, dkC] (by decide) (by decide)

/-! ## Search index (internal/search/index.go)

`buildEntries` reads a session file from disk; it is modelled as a
parameter `parse` giving each path's parse outcome.  The scanner
snapshot flattening (`Dates()` then `SessionsByDate` per date) is the
input list `files`; a refresh observes it fixed. -/

/-- Go search `entry`. -/
structure entry where
  date : Str
  path : Str
  file : Str
  line : Nat
  role : Str
  content : Str
  lower : Str
deriving DecidableEq, Repr

/-- Go `fileIndex`: the per-file cache record. -/
structure fileIndex where
  size : Int
  modTime : Int
  entries : List entry
deriving DecidableEq, Repr

/-- A `buildEntries` error, distinguished by message. -/
structure ParseErr where
  msg : Str
deriving DecidableEq, Repr

/-- The error component of a parse outcome. -/
def errOf : Except ParseErr (List entry) → Option ParseErr
  | .error e => some e
  | .ok _ => none

/-- The cached record for `file` exists and matches its current size
and modification time. -/
def cacheHit (existing : Str → Option fileIndex) (file : SessionFile) : Bool :=
  match existing file.Path with
  | some meta => decide (meta.size = file.Size) && decide (meta.modTime = file.ModTime)
  | none => false

/-- First loop of `RefreshFrom`: carry matching cached records into
`next` and collect the files to parse, in snapshot order. -/
def scanSnapshot (existing : Str → Option fileIndex) :
    List SessionFile → (Str → Option fileIndex) → List SessionFile →
      (Str → Option fileIndex) × List SessionFile
  | [], next, toParse => (next, toParse)
  | file :: rest, next, toParse =>
    match existing file.Path with
    | some meta =>
      if decide (meta.size = file.Size) && decide (meta.modTime = file.ModTime) then
        scanSnapshot existing rest (updFn next file.Path (some meta)) toParse
      else
        scanSnapshot existing rest next (toParse ++ [file])
    | none => scanSnapshot existing rest next (toParse ++ [file])

/-- Second loop of `RefreshFrom`: parse each stale file; a failure keeps
the file's previous record (when one exists) and records the first
error; a success installs a fresh record. -/
def parsePass (existing : Str → Option fileIndex)
    (parse : Str → Except ParseErr (List entry)) :
    List SessionFile → (Str → Option fileIndex) → Option ParseErr →
      (Str → Option fileIndex) × Option ParseErr
  | [], next, firstErr => (next, firstErr)
  | file :: rest, next, firstErr =>
    match parse file.Path with
    | .error e =>
      let firstErr2 := match firstErr with
        | none => some e
        | some e0 => some e0
      match existing file.Path with
      | some meta => parsePass existing parse rest (updFn next file.Path (some meta)) firstErr2
      | none => parsePass existing parse rest next firstErr2
    | .ok es =>
      parsePass existing parse rest
        (updFn next file.Path (some { size := file.Size, modTime := file.ModTime, entries := es }))
        firstErr

/-- The state `RefreshFrom` publishes, together with the returned error. -/
structure SearchRefreshOut where
  files : Str → Option fileIndex
  ordered : List entry
  err : Option ParseErr

/-- Go `search.Index.RefreshFrom`. -/
def RefreshFrom (existing : Str → Option fileIndex)
    (parse : Str → Except ParseErr (List entry))
    (files : List SessionFile) : SearchRefreshOut :=
  let p1 := scanSnapshot existing files (fun _ => none) []
  let p2 := parsePass existing parse p1.2 p1.1 none
  { files := p2.1,
    ordered := files.flatMap fun f =>
      match p2.1 f.Path with
      | some meta => meta.entries
      | none => [],
    err := p2.2 }

/-! Helper lemmas about the two `RefreshFrom` loops. -/

theorem cacheHit_of_some (existing : Str → Option fileIndex) (file : SessionFile)
    (meta : fileIndex) (h : existing file.Path = some meta) :
    cacheHit existing file =
      (decide (meta.size = file.Size) && decide (meta.modTime = file.ModTime)) := by
  unfold cacheHit
  rw [h]

theorem cacheHit_of_none (existing : Str → Option fileIndex) (file : SessionFile)
    (h : existing file.Path = none) : cacheHit existing file = false := by
  unfold cacheHit
  rw [h]

theorem scanSnapshot_toParse (existing : Str → Option fileIndex) :
    ∀ (files : List SessionFile) (next : Str → Option fileIndex) (acc : List SessionFile),
      (scanSnapshot existing files next acc).2 =
        acc ++ files.filter (fun f => !cacheHit existing f) := by
  intro files
  induction files with
  | nil => intro next acc; simp [scanSnapshot]
  | cons file rest ih =>
    intro next acc
    unfold scanSnapshot
    cases h : existing file.Path with
    | none =>
      dsimp only
      rw [ih]
      simp [List.filter_cons, cacheHit_of_none existing file h]
    | some meta =>
      dsimp only
      by_cases hh : (decide (meta.size = file.Size) && decide (meta.modTime = file.ModTime)) = true
      · rw [if_pos hh, ih]
        simp [List.filter_cons, cacheHit_of_some existing file meta h, hh]
      · rw [if_neg hh, ih]
        have hc : cacheHit existing file = false := by
          rw [cacheHit_of_some existing file meta h]
          exact eq_false_of_ne_true hh
        simp [List.filter_cons, hc]

theorem scanSnapshot_notmem (existing : Str → Option fileIndex) :
    ∀ (files : List SessionFile) (next : Str → Option fileIndex) (acc : List SessionFile)
      (p : Str), p ∉ files.map SessionFile.Path →
      (scanSnapshot existing files next acc).1 p = next p := by
  intro files
  induction files with
  | nil => intro next acc p _; simp [scanSnapshot]
  | cons file rest ih =>
    intro next acc p hp
    simp only [List.map_cons, List.mem_cons, not_or] at hp
    unfold scanSnapshot
    cases h : existing file.Path with
    | none => exact ih _ _ _ hp.2
    | some meta =>
      by_cases hh : (decide (meta.size = file.Size) && decide (meta.modTime = file.ModTime)) = true
      · simp only [hh, if_pos]
        rw [ih _ _ _ hp.2]
        simp [updFn, hp.1]
      · simp only [hh, if_neg, Bool.false_eq_true, if_false]
        exact ih _ _ _ hp.2

theorem scanSnapshot_hit (existing : Str → Option fileIndex) :
    ∀ (files : List SessionFile) (next : Str → Option fileIndex) (acc : List SessionFile)
      (f : SessionFile), (files.map SessionFile.Path).Nodup → f ∈ files →
      cacheHit existing f = true →
      (scanSnapshot existing files next acc).1 f.Path = existing f.Path := by
  intro files
  induction files with
  | nil => intro next acc f _ hf; cases hf
  | cons file rest ih =>
    intro next acc f hnd hf hhit
    simp only [List.map_cons, List.nodup_cons] at hnd
    rcases List.mem_cons.mp hf with rfl | hf2
    · unfold scanSnapshot
      cases h : existing f.Path with
      | none => rw [cacheHit_of_none existing f h] at hhit; cases hhit
      | some meta =>
        rw [cacheHit_of_some existing f meta h] at hhit
        dsimp only
        rw [if_pos hhit]
        rw [scanSnapshot_notmem existing rest _ _ _ hnd.1]
        simp [updFn, h]
    · unfold scanSnapshot
      cases h : existing file.Path with
      | none => exact ih _ _ _ hnd.2 hf2 hhit
      | some meta =>
        by_cases hh : (decide (meta.size = file.Size) && decide (meta.modTime = file.ModTime)) = true
        · simp only [hh, if_pos]
          exact ih _ _ _ hnd.2 hf2 hhit
        · simp only [hh, if_neg, Bool.false_eq_true, if_false]
          exact ih _ _ _ hnd.2 hf2 hhit

theorem parsePass_notmem (existing : Str → Option fileIndex)
    (parse : Str → Except ParseErr (List entry)) :
    ∀ (l : List SessionFile) (next : Str → Option fileIndex) (fe : Option ParseErr)
      (p : Str), p ∉ l.map SessionFile.Path →
      (parsePass existing parse l next fe).1 p = next p := by
  intro l
  induction l with
  | nil => intro next fe p _; simp [parsePass]
  | cons file rest ih =>
    intro next fe p hp
    simp only [List.map_cons, List.mem_cons, not_or] at hp
    unfold parsePass
    cases hparse : parse file.Path with
    | error e =>
      cases h : existing file.Path with
      | none => exact ih _ _ _ hp.2
      | some meta =>
        rw [ih _ _ _ hp.2]
        simp [updFn, hp.1]
    | ok es =>
      rw [ih _ _ _ hp.2]
      simp [updFn, hp.1]

theorem parsePass_ok (existing : Str → Option fileIndex)
    (parse : Str → Except ParseErr (List entry)) :
    ∀ (l : List SessionFile) (next : Str → Option fileIndex) (fe : Option ParseErr)
      (f : SessionFile) (es : List entry), (l.map SessionFile.Path).Nodup → f ∈ l →
      parse f.Path = .ok es →
      (parsePass existing parse l next fe).1 f.Path =
        some { size := f.Size, modTime := f.ModTime, entries := es } := by
  intro l
  induction l with
  | nil => intro next fe f es _ hf; cases hf
  | cons file rest ih =>
    intro next fe f es hnd hf hparse
    simp only [List.map_cons, List.nodup_cons] at hnd
    rcases List.mem_cons.mp hf with rfl | hf2
    · unfold parsePass
      rw [hparse]
      rw [parsePass_notmem existing parse rest _ _ _ hnd.1]
      simp [updFn]
    · unfold parsePass
      cases hp : parse file.Path with
      | error e =>
        cases h : existing file.Path with
        | none => exact ih _ _ _ _ hnd.2 hf2 hparse
        | some meta => exact ih _ _ _ _ hnd.2 hf2 hparse
      | ok es2 => exact ih _ _ _ _ hnd.2 hf2 hparse

theorem parsePass_error_kept (existing : Str → Option fileIndex)
    (parse : Str → Except ParseErr (List entry)) :
    ∀ (l : List SessionFile) (next : Str → Option fileIndex) (fe : Option ParseErr)
      (f : SessionFile) (e : ParseErr) (m : fileIndex), (l.map SessionFile.Path).Nodup →
      f ∈ l → parse f.Path = .error e → existing f.Path = some m →
      (parsePass existing parse l next fe).1 f.Path = some m := by
  intro l
  induction l with
  | nil => intro next fe f e m _ hf; cases hf
  | cons file rest ih =>
    intro next fe f e m hnd hf hparse hex
    simp only [List.map_cons, List.nodup_cons] at hnd
    rcases List.mem_cons.mp hf with rfl | hf2
    · unfold parsePass
      rw [hparse, hex]
      rw [parsePass_notmem existing parse rest _ _ _ hnd.1]
      simp [updFn]
    · unfold parsePass
      cases hp : parse file.Path with
      | error e2 =>
        cases h : existing file.Path with
        | none => exact ih _ _ _ _ _ hnd.2 hf2 hparse hex
        | some meta => exact ih _ _ _ _ _ hnd.2 hf2 hparse hex
      | ok es2 => exact ih _ _ _ _ _ hnd.2 hf2 hparse hex

theorem parsePass_firstErr (existing : Str → Option fileIndex)
    (parse : Str → Except ParseErr (List entry)) :
    ∀ (l : List SessionFile) (next : Str → Option fileIndex) (fe : Option ParseErr),
      (parsePass existing parse l next fe).2 =
        match fe with
        | some e0 => some e0
        | none => (l.filterMap fun f => errOf (parse f.Path)).head? := by
  intro l
  induction l with
  | nil =>
    intro next fe
    cases fe <;> simp [parsePass]
  | cons file rest ih =>
    intro next fe
    unfold parsePass
    cases hp : parse file.Path with
    | error e =>
      cases fe with
      | some e0 =>
        cases h : existing file.Path <;> simp [ih]
      | none =>
        cases h : existing file.Path <;>
          simp [ih, List.filterMap_cons, errOf, hp]
    | ok es =>
      cases fe with
      | some e0 => simp [ih]
      | none => simp [ih, List.filterMap_cons, errOf, hp]

/-- Claim C2: during `RefreshFrom`, a file whose parse fails keeps its
previously cached record (when one exists) in the new cache; processing
continues over all remaining files (every successfully parsed stale file
is still fully indexed); and the error returned after the whole pass is
exactly the first failure in the to-parse order, or none. -/
theorem refreshFrom_partial_failure (existing : Str → Option fileIndex)
    (parse : Str → Except ParseErr (List entry)) (files : List SessionFile)
    (hnd : (files.map SessionFile.Path).Nodup) :
    ((RefreshFrom existing parse files).err =
      (((scanSnapshot existing files (fun _ => none) []).2).filterMap
        (fun f => errOf (parse f.Path))).head?)
    ∧ (∀ f ∈ (scanSnapshot existing files (fun _ => none) []).2,
        ∀ e, parse f.Path = .error e → ∀ m, existing f.Path = some m →
          (RefreshFrom existing parse files).files f.Path = some m)
    ∧ (∀ f ∈ (scanSnapshot existing files (fun _ => none) []).2,
        ∀ es, parse f.Path = .ok es →
          (RefreshFrom existing parse files).files f.Path =
            some { size := f.Size, modTime := f.ModTime, entries := es }) := by
  have hndp : ((scanSnapshot existing files (fun _ => none) []).2.map SessionFile.Path).Nodup := by
    rw [scanSnapshot_toParse]
    simp only [List.nil_append]
    exact List.Nodup.sublist (List.Sublist.map _ (List.filter_sublist files)) hnd
  refine ⟨?_, ?_, ?_⟩
  · unfold RefreshFrom
    exact parsePass_firstErr existing parse _ _ none
  · intro f hf e hparse m hex
    unfold RefreshFrom
    exact parsePass_error_kept existing parse _ _ none f e m hndp hf hparse hex
  · intro f hf es hparse
    unfold RefreshFrom
    exact parsePass_ok existing parse _ _ none f es hndp hf hparse

/-- Claim C3: for every file in the snapshot, `RefreshFrom` reuses the
cached record exactly on a (size, modtime) match — without handing the
file to the parser — and otherwise installs a record holding exactly
the fresh parse result (the cached entries are discarded wholesale,
never appended to); paths absent from the snapshot are absent from the
rebuilt cache. -/
theorem refreshFrom_cache_validity (existing : Str → Option fileIndex)
    (parse : Str → Except ParseErr (List entry)) (files : List SessionFile)
    (hnd : (files.map SessionFile.Path).Nodup) :
    (∀ f ∈ files, cacheHit existing f = true →
      (RefreshFrom existing parse files).files f.Path = existing f.Path ∧
      f ∉ (scanSnapshot existing files (fun _ => none) []).2)
    ∧ (∀ f ∈ files, cacheHit existing f = false → ∀ es, parse f.Path = .ok es →
        (RefreshFrom existing parse files).files f.Path =
          some { size := f.Size, modTime := f.ModTime, entries := es })
    ∧ (∀ p, p ∉ files.map SessionFile.Path →
        (RefreshFrom existing parse files).files p = none) := by
  refine ⟨?_, ?_, ?_⟩
  · intro f hf hhit
    constructor
    · unfold RefreshFrom
      have hmem : f.Path ∉ ((scanSnapshot existing files (fun _ => none) []).2.map
          SessionFile.Path) := by
        rw [scanSnapshot_toParse]
        simp only [List.nil_append, List.mem_map, not_exists, not_and]
        intro g hg hpath
        have hgf := List.of_mem_filter hg
        have hgmem := List.mem_of_mem_filter hg
        have hfg : g = f := List.inj_on_of_nodup_map hnd hgmem hf hpath
        rw [hfg, hhit] at hgf
        simp at hgf
      dsimp only
      rw [parsePass_notmem existing parse _ _ _ _ hmem]
      exact scanSnapshot_hit existing files _ _ f hnd hf hhit
    · intro hmem
      rw [scanSnapshot_toParse] at hmem
      simp only [List.nil_append] at hmem
      have := List.of_mem_filter hmem
      rw [hhit] at this
      cases this
  · intro f hf hmiss es hparse
    have hndp : ((scanSnapshot existing files (fun _ => none) []).2.map
        SessionFile.Path).Nodup := by
      rw [scanSnapshot_toParse]
      simp only [List.nil_append]
      exact List.Nodup.sublist (List.Sublist.map _ (List.filter_sublist files)) hnd
    have hmem : f ∈ (scanSnapshot existing files (fun _ => none) []).2 := by
      rw [scanSnapshot_toParse]
      simp only [List.nil_append]
      exact List.mem_filter.mpr ⟨hf, by simp [hmiss]⟩
    unfold RefreshFrom
    exact parsePass_ok existing parse _ _ none f es hndp hmem hparse
  · intro p hp
    have hp2 : p ∉ ((scanSnapshot existing files (fun _ => none) []).2.map
        SessionFile.Path) := by
      rw [scanSnapshot_toParse]
      simp only [List.nil_append]
      intro hmem
      rcases List.mem_map.mp hmem with ⟨g, hg, hgp⟩
      exact hp (List.mem_map.mpr ⟨g, List.mem_of_mem_filter hg, hgp⟩)
    unfold RefreshFrom
    dsimp only
    rw [parsePass_notmem existing parse _ _ _ _ hp2]
    exact scanSnapshot_notmem existing files _ _ _ hp

/-- Snapshot file with a stale cache record whose reparse fails. -/
def sfX : SessionFile :=
  { Date := dkC, Name := str "x.jsonl", Path := str "/s/2026/01/09/x.jsonl",
    Size := 10, ModTime := 5, Meta := none }

/-- Snapshot file with no cache record whose parse succeeds. -/
def sfY : SessionFile :=
  { Date := dkC, Name := str "y.jsonl", Path := str "/s/2026/01/09/y.jsonl",
    Size := 7, ModTime := 6, Meta := none }

/-- Snapshot file whose cache record matches its stat. -/
def sfZ : SessionFile :=
  { Date := dkC, Name := str "z.jsonl", Path := str "/s/2026/01/09/z.jsonl",
    Size := 3, ModTime := 2, Meta := none }

/-- The cached entry of `sfX` from the previous pass. -/
def entX : entry :=
  { date := str "2026-01-09", path := str "2026/01/09", file := str "x.jsonl",
    line := 1, role := str "user", content := str "old entry", lower := str "old entry" }

/-- Stale cache record for `sfX` (size and modtime no longer match). -/
def recX : fileIndex := { size := 9, modTime := 4, entries := [entX] }

/-- Matching cache record for `sfZ`. -/
def recZ : fileIndex := { size := 3, modTime := 2, entries := [] }

/-- The cache before the refresh. -/
def ex0 : Str → Option fileIndex :=
  fun p => if p = sfX.Path then some recX else if p = sfZ.Path then some recZ else none

/-- The fresh entry parsed out of `sfY`. -/
def entY : entry :=
  { date := str "2026-01-09", path := str "2026/01/09", file := str "y.jsonl",
    line := 2, role := str "assistant", content := str "say Hello there",
    lower := toLowerGo (str "say Hello there") }

/-- The parse outcomes: `sfX` fails, everything else yields `entY`. -/
def parse0 : Str → Except ParseErr (List entry) :=
  fun p => if p = sfX.Path then .error { msg := str "boom" } else .ok [entY]

/-- The snapshot flattening for the search-refresh witnesses. -/
def files0 : List SessionFile := [sfZ, sfX, sfY]

/-- Witness for C2 at the concrete refresh: the first (only) failure is
returned, the failed file keeps its old record, the later file is still
freshly indexed. -/
theorem refreshFrom_partial_failure_witness :
    ((RefreshFrom ex0 parse0 files0).err =
      (((scanSnapshot ex0 files0 (fun _ => none) []).2).filterMap
        (fun f => errOf (parse0 f.Path))).head?)
    ∧ (RefreshFrom ex0 parse0 files0).files sfX.Path = some recX
    ∧ (RefreshFrom ex0 parse0 files0).files sfY.Path =
        some { size := sfY.Size, modTime := sfY.ModTime, entries := [entY] } :=
  ⟨(refreshFrom_partial_failure ex0 parse0 files0 (by decide)).1,
   (refreshFrom_partial_failure ex0 parse0 files0 (by decide)).2.1 sfX (by decide)
     { msg := str "boom" } rfl recX (by decide),
   (refreshFrom_partial_failure ex0 parse0 files0 (by decide)).2.2 sfY (by decide)
     [entY] rfl⟩

/-- Witness for C3 at the concrete refresh: the matching file's record
is reused without reparsing, the new file gets a fresh record, an absent
path stays absent. -/
theorem refreshFrom_cache_validity_witness :
    ((RefreshFrom ex0 parse0 files0).files sfZ.Path = ex0 sfZ.Path ∧
      sfZ ∉ (scanSnapshot ex0 files0 (fun _ => none) []).2)
    ∧ (RefreshFrom ex0 parse0 files0).files sfY.Path =
        some { size := sfY.Size, modTime := sfY.ModTime, entries := [entY] }
    ∧ (RefreshFrom ex0 parse0 files0).files (str "/absent") = none :=
  ⟨(refreshFrom_cache_validity ex0 parse0 files0 (by decide)).1 sfZ (by decide) (by decide),
   (refreshFrom_cache_validity ex0 parse0 files0 (by decide)).2.1 sfY (by decide)
     (by decide) [entY] rfl,
   (refreshFrom_cache_validity ex0 parse0 files0 (by decide)).2.2 (str "/absent") (by decide)⟩

/-! ## `Search` -/

/-- Go search `Result`. -/
structure Result where
  Date : Str
  Path : Str
  File : Str
  Line : Nat
  Role : Str
  Preview : Str
deriving DecidableEq, Repr

/-- Go `defaultLimit`. -/
def defaultLimit : Nat := 50

/-- Go `maxLimit`. -/
def maxLimit : Nat := 200

/-- Go `snippetRadius`. -/
def snippetRadius : Nat := 60

/-- Go `snippetMax`. -/
def snippetMax : Nat := 180

/-- Go `truncate`. -/
def truncate (value : Str) (max : Nat) : Str :=
  if value.length ≤ max then value
  else if max ≤ 3 then value.take max
  else value.take (max - 3) ++ str "..."

/-- Go `makePreview`.  The call site always passes the non-negative
index `strings.Index` found, so `matchIndex` is a `Nat` and Go's
`matchIndex < 0` guard is subsumed by the out-of-range test. -/
def makePreview (content : Str) (matchIndex : Nat) (queryLen : Nat) : Str :=
  let cleaned :=
    trimGo (content.map fun c => if c = '\r' then ' ' else if c = '\n' then ' ' else c)
  if cleaned = [] then []
  else if matchIndex ≥ cleaned.length ∨ queryLen = 0 then truncate cleaned snippetMax
  else
    let start := matchIndex - snippetRadius
    let stop := min (matchIndex + queryLen + snippetRadius) cleaned.length
    let snippet := trimGo ((cleaned.drop start).take (stop - start))
    let snippet2 := if start > 0 then str "..." ++ snippet else snippet
    if stop < cleaned.length then snippet2 ++ str "..." else snippet2

/-- Build the `Result` for a matching entry (recomputing the match
index the loop found). -/
def mkResult (lower : Str) (item : entry) : Result :=
  { Date := item.date, Path := item.path, File := item.file, Line := item.line,
    Role := item.role,
    Preview := makePreview item.content ((strIndex item.lower lower).getD 0) lower.length }

/-- The scan loop of `Index.Search`, with `k` the remaining capacity
`limit - len(results)`; Go appends and then breaks once
`len(results) >= limit`, which for `k ≥ 1` is stopping at `k ≤ 1`. -/
def searchLoop (lower : Str) : List entry → Nat → List Result
  | [], _ => []
  | item :: rest, k =>
    match strIndex item.lower lower with
    | none => searchLoop lower rest k
    | some _ => mkResult lower item :: (if k ≤ 1 then [] else searchLoop lower rest (k - 1))

/-- The effective limit of `Search`: 50 when non-positive, then clamped
to 200. -/
def clampLimit (limit : Int) : Nat :=
  let l1 : Int := if limit ≤ 0 then 50 else limit
  let l2 : Int := if l1 > 200 then 200 else l1
  l2.toNat

/-- Go `Index.Search` over the published flattened entry list. -/
def Search (ordered : List entry) (query : Str) (limit : Int) : List Result :=
  let q := trimGo query
  if q = [] then []
  else searchLoop (toLowerGo q) ordered (clampLimit limit)

/-- Case-insensitive substring containment, as the spec words it. -/
def containsCI (content q : Str) : Bool :=
  (strIndex (toLowerGo content) (toLowerGo q)).isSome

/-- The reference semantics claim C6 states for `Search`: trim the
query (empty → no results); effective limit 50 when the given limit is
non-positive and 200 when it exceeds 200; then the first
effective-limit entries whose content contains the query
case-insensitively, in traversal order. -/
def searchSpec (ordered : List entry) (query : Str) (limit : Int) : List Result :=
  let q := trimGo query
  if q = [] then []
  else
    let eff : Nat := if limit ≤ 0 then 50 else if limit > 200 then 200 else limit.toNat
    ((ordered.filter fun e => containsCI e.content q).take eff).map (mkResult (toLowerGo q))

theorem clampLimit_zeta (limit : Int) :
    clampLimit limit =
      (if (if limit ≤ 0 then (50 : Int) else limit) > 200 then (200 : Int)
       else if limit ≤ 0 then (50 : Int) else limit).toNat := rfl

theorem clampLimit_eq (limit : Int) :
    clampLimit limit =
      if limit ≤ 0 then 50 else if limit > 200 then 200 else limit.toNat := by
  rw [clampLimit_zeta]
  split_ifs <;> omega

theorem clampLimit_pos (limit : Int) : 1 ≤ clampLimit limit := by
  rw [clampLimit_zeta]
  split_ifs <;> omega

theorem searchLoop_eq_filter_take (lower : Str) :
    ∀ (l : List entry) (k : Nat), 1 ≤ k → (∀ e ∈ l, e.lower = toLowerGo e.content) →
      searchLoop lower l k =
        ((l.filter fun e => (strIndex (toLowerGo e.content) lower).isSome).take k).map
          (mkResult lower) := by
  intro l
  induction l with
  | nil => intro k _ _; simp [searchLoop]
  | cons item rest ih =>
    intro k hk h
    have hitem : item.lower = toLowerGo item.content := h item (by simp)
    have hrest : ∀ e ∈ rest, e.lower = toLowerGo e.content := fun e he => h e (by simp [he])
    unfold searchLoop
    cases hs : strIndex item.lower lower with
    | none =>
      have hcond : (strIndex (toLowerGo item.content) lower).isSome = false := by
        rw [← hitem, hs]; rfl
      rw [ih k hk hrest]
      simp [List.filter_cons, hcond]
    | some i =>
      have hcond : (strIndex (toLowerGo item.content) lower).isSome = true := by
        rw [← hitem, hs]; rfl
      by_cases hk1 : k ≤ 1
      · have hkeq : k = 1 := by omega
        subst hkeq
        simp [List.filter_cons, hcond]
      · have hk2 : 1 ≤ k - 1 := by omega
        rw [ih (k - 1) hk2 hrest]
        simp only [List.filter_cons, hcond, if_pos]
        rw [List.take_cons (by omega : 0 < k)]
        simp [hk1]

/-- Claim C6: `Search(query, limit)` equals the reference definition:
trimmed query, empty query → no results, effective limit 50 on
non-positive input and capped at 200, and the first effective-limit
entries (in traversal order) whose content contains the query as a
case-insensitive substring — provided each entry's cached `lower` field
is the lower-casing of its content, as `buildEntries` constructs it. -/
theorem search_reference_equivalence (ordered : List entry) (query : Str) (limit : Int)
    (h : ∀ e ∈ ordered, e.lower = toLowerGo e.content) :
    Search ordered query limit = searchSpec ordered query limit := by
  unfold Search searchSpec
  by_cases hq : trimGo query = []
  · simp [hq]
  · simp only [hq, if_neg, if_false]
    rw [searchLoop_eq_filter_take (toLowerGo (trimGo query)) ordered (clampLimit limit)
      (clampLimit_pos limit) h]
    rw [clampLimit_eq]
    rfl

/-- An indexed entry whose content contains "Hello". -/
def entHello : entry :=
  { date := str "2026-01-09", path := str "2026/01/09", file := str "h.jsonl",
    line := 1, role := str "user", content := str "say Hello there",
    lower := toLowerGo (str "say Hello there") }

/-- Witness for C6: the code search and the reference search coincide on
a concrete index for the case-insensitive query "HELLO". -/
theorem search_reference_equivalence_witness :
    Search [entHello] (str "HELLO") 10 = searchSpec [entHello] (str "HELLO") 10 :=
  search_reference_equivalence [entHello] (str "HELLO") 10 (by decide)

/-! ## Session parser (parser.go)

JSON decoding (`encoding/json`) is external; a line is modelled by its
decode outcome.  `RenderItem`'s Go fields `Type` and `Class` are Lean
keywords and are named `typ` and `cls` here. -/

/-- Go `RenderItem`. -/
structure RenderItem where
  line : Nat
  timestamp : Str
  typ : Str
  subtype : Str
  role : Str
  title : Str
  content : Str
  raw : Str
  cls : Str
deriving DecidableEq, Repr

/-- Go `isUserMessage`. -/
def isUserMessage (item : RenderItem) : Bool :=
  decide (item.subtype = str "message") && decide (item.role = str "user")

/-- The merge condition: identical (type, subtype, role). -/
def sameKey (a b : RenderItem) : Bool :=
  decide (a.typ = b.typ) && decide (a.subtype = b.subtype) && decide (a.role = b.role)

/-- The loop of Go `mergeConsecutive`, with `current` the entry being
accumulated and `inUserGroup` the flag set from the first entry of the
current run. -/
def mergeConsecutiveAux (current : RenderItem) (inUserGroup : Bool) :
    List RenderItem → List RenderItem
  | [] => [current]
  | item :: rest =>
    if sameKey current item then
      if inUserGroup && isUserMessage item then
        mergeConsecutiveAux
          { current with content := item.content, line := item.line,
                         timestamp := item.timestamp, raw := item.raw } inUserGroup rest
      else if trimGo item.content ≠ [] then
        if trimGo current.content ≠ [] then
          mergeConsecutiveAux
            { current with content := current.content ++ str "\n\n" ++ item.content }
            inUserGroup rest
        else
          mergeConsecutiveAux { current with content := item.content } inUserGroup rest
      else
        mergeConsecutiveAux current inUserGroup rest
    else
      current :: mergeConsecutiveAux item (isUserMessage item) rest

/-- Go `mergeConsecutive`. -/
def mergeConsecutive : List RenderItem → List RenderItem
  | [] => []
  | first :: rest => mergeConsecutiveAux first (isUserMessage first) rest

/-- The decode outcome of one line in `parseLine`: a successfully
decoded "session_meta" envelope, a "response_item" that produced a
display entry, or a skipped line (structural decode failure, ignored
envelope type, dropped payload type, or non-user/assistant message). -/
inductive DecodedLine where
  | metaLine (m : SessionMeta)
  | itemLine (item : RenderItem)
  | skipLine
deriving DecidableEq, Repr

/-- The state update `parseLine` performs on the session being built: a
decoded "session_meta" overwrites the header, a display entry is
appended. -/
def applyLine (st : Option SessionMeta × List RenderItem) (l : DecodedLine) :
    Option SessionMeta × List RenderItem :=
  match l with
  | .metaLine m => (some m, st.2)
  | .itemLine item => (st.1, st.2 ++ [item])
  | .skipLine => st

/-- Go `ParseSession`: the line loop followed by the merge step,
returning the header and the merged timeline. -/
def ParseSession (lines : List DecodedLine) : Option SessionMeta × List RenderItem :=
  let st := lines.foldl applyLine (none, [])
  (st.1, mergeConsecutive st.2)

/-- The meta payload of a decoded line. -/
def metaOf : DecodedLine → Option SessionMeta
  | .metaLine m => some m
  | .itemLine _ => none
  | .skipLine => none

theorem foldl_applyLine_fst :
    ∀ (lines : List DecodedLine) (st : Option SessionMeta × List RenderItem),
      (lines.foldl applyLine st).1 = ((lines.filterMap metaOf).getLast?).or st.1 := by
  intro lines
  induction lines with
  | nil => intro st; simp
  | cons l rest ih =>
    intro st
    rw [List.foldl_cons, ih]
    cases l with
    | metaLine m =>
      simp only [List.filterMap_cons, metaOf, List.getLast?_cons]
      cases h : (rest.filterMap metaOf).getLast? with
      | none => simp [h, applyLine]
      | some m2 => simp [h]
    | itemLine item => simp [List.filterMap_cons, metaOf, applyLine]
    | skipLine => simp [List.filterMap_cons, metaOf, applyLine]

/-- Claim C9: every successfully decoded "session_meta" line overwrites
the session's header, so `ParseSession` returns the header of the last
such line (none when there is none). -/
theorem session_meta_last_wins (lines : List DecodedLine) :
    (ParseSession lines).1 = (lines.filterMap metaOf).getLast? := by
  unfold ParseSession
  dsimp only
  rw [foldl_applyLine_fst]
  cases h : (lines.filterMap metaOf).getLast? <;> simp [h]

/-! ## The merge rule (claims C5 and C10) -/

theorem sameKey_iff (a b : RenderItem) :
    sameKey a b = true ↔ a.typ = b.typ ∧ a.subtype = b.subtype ∧ a.role = b.role := by
  unfold sameKey
  simp [and_assoc]

theorem sameKey_user (a b : RenderItem) (h : sameKey a b = true) :
    isUserMessage a = isUserMessage b := by
  obtain ⟨_, h2, h3⟩ := (sameKey_iff a b).mp h
  unfold isUserMessage
  rw [h2, h3]

theorem sameKey_shift (a b : RenderItem) (h : sameKey a b = true) (y : RenderItem) :
    sameKey a y = sameKey b y := by
  obtain ⟨h1, h2, h3⟩ := (sameKey_iff a b).mp h
  unfold sameKey
  rw [h1, h2, h3]

/-- One accumulation step of the merge loop on a same-key item: a user
run keeps the newcomer's content/line/timestamp/raw, any other run
appends a trim-non-empty newcomer content with a blank-line separator
(replacing a trim-empty accumulated content). -/
def mergeStep (c i : RenderItem) : RenderItem :=
  if isUserMessage c then
    { c with content := i.content, line := i.line, timestamp := i.timestamp, raw := i.raw }
  else if trimGo i.content ≠ [] then
    if trimGo c.content ≠ [] then
      { c with content := c.content ++ str "\n\n" ++ i.content }
    else { c with content := i.content }
  else c

theorem mergeStep_key (c i : RenderItem) :
    (mergeStep c i).typ = c.typ ∧ (mergeStep c i).subtype = c.subtype ∧
      (mergeStep c i).role = c.role := by
  unfold mergeStep
  split_ifs <;> simp

theorem mergeStep_user (c i : RenderItem) :
    isUserMessage (mergeStep c i) = isUserMessage c := by
  obtain ⟨_, h2, h3⟩ := mergeStep_key c i
  unfold isUserMessage
  rw [h2, h3]

theorem mergeStep_sameKey (c i y : RenderItem) :
    sameKey (mergeStep c i) y = sameKey c y := by
  obtain ⟨h1, h2, h3⟩ := mergeStep_key c i
  unfold sameKey
  rw [h1, h2, h3]

theorem mergeAux_step (c i : RenderItem) (rest : List RenderItem)
    (hkey : sameKey c i = true) :
    mergeConsecutiveAux c (isUserMessage c) (i :: rest) =
      mergeConsecutiveAux (mergeStep c i) (isUserMessage c) rest := by
  have huser : isUserMessage i = isUserMessage c := (sameKey_user c i hkey).symm
  conv_lhs => rw [mergeConsecutiveAux]
  rw [if_pos hkey]
  by_cases hu : isUserMessage c = true
  · have hcond : (isUserMessage c && isUserMessage i) = true := by rw [huser, hu]; rfl
    rw [if_pos hcond]
    have hstep : mergeStep c i =
        { c with content := i.content, line := i.line, timestamp := i.timestamp,
                 raw := i.raw } := by
      unfold mergeStep
      rw [if_pos hu]
    rw [hstep]
  · have hu' : isUserMessage c = false := eq_false_of_ne_true hu
    have hcond : ¬(isUserMessage c && isUserMessage i) = true := by
      rw [hu']
      exact Bool.false_ne_true
    rw [if_neg hcond]
    by_cases hi : trimGo i.content ≠ []
    · by_cases hc : trimGo c.content ≠ []
      · rw [if_pos hi, if_pos hc]
        have hstep : mergeStep c i =
            { c with content := c.content ++ str "\n\n" ++ i.content } := by
          unfold mergeStep
          rw [if_neg hu, if_pos hi, if_pos hc]
        rw [hstep]
      · rw [if_pos hi, if_neg hc]
        have hstep : mergeStep c i = { c with content := i.content } := by
          unfold mergeStep
          rw [if_neg hu, if_pos hi, if_neg hc]
        rw [hstep]
    · rw [if_neg hi]
      have hstep : mergeStep c i = c := by
        unfold mergeStep
        rw [if_neg hu, if_neg hi]
      rw [hstep]

theorem dropWhile_forall (p : Char → Bool) (s : Str) :
    (∀ c ∈ s.dropWhile p, p c = true) ↔ (∀ c ∈ s, p c = true) := by
  induction s with
  | nil => simp
  | cons c rest ih =>
    by_cases hp : p c = true
    · rw [List.dropWhile_cons_of_pos hp, ih]
      constructor
      · intro h x hx
        rcases List.mem_cons.mp hx with rfl | hx2
        · exact hp
        · exact h x hx2
      · intro h x hx
        exact h x (List.mem_cons_of_mem c hx)
    · rw [List.dropWhile_cons_of_neg hp]

theorem trimGo_eq_nil_iff (s : Str) : trimGo s = [] ↔ ∀ c ∈ s, isSpaceGo c = true := by
  unfold trimGo
  rw [List.reverse_eq_nil_iff, List.dropWhile_eq_nil_iff]
  constructor
  · intro h
    rw [← dropWhile_forall isSpaceGo s]
    intro c hc
    exact h c (List.mem_reverse.mpr hc)
  · intro h c hc
    exact (dropWhile_forall isSpaceGo s).mpr h c (List.mem_reverse.mp hc)

theorem trimGo_append_ne (a b : Str) (hb : trimGo b ≠ []) : trimGo (a ++ b) ≠ [] := by
  intro h
  apply hb
  rw [trimGo_eq_nil_iff] at h ⊢
  intro c hc
  exact h c (List.mem_append_right a hc)

/-- Concatenation with a separator. -/
def joinSep (sep : Str) : List Str → Str
  | [] => []
  | c :: rest => if rest.isEmpty then c else c ++ sep ++ joinSep sep rest

theorem joinSep_cons_cons (sep a b : Str) (l : List Str) :
    joinSep sep (a :: b :: l) = joinSep sep ((a ++ sep ++ b) :: l) := by
  cases l with
  | nil => simp [joinSep]
  | cons x xs => simp [joinSep, List.append_assoc]

/-- The collapse of one maximal run as the spec states it: for a run of
user messages, the single surviving entry carries the last message's
content, line, timestamp (and raw line); for any other run the
trim-non-empty contents are concatenated in order with a blank-line
separator. -/
def collapseRun (x : RenderItem) (xs : List RenderItem) : RenderItem :=
  if isUserMessage x then
    let l := xs.getLastD x
    { x with content := l.content, line := l.line, timestamp := l.timestamp, raw := l.raw }
  else
    let cs := (x.content :: xs.map RenderItem.content).filter fun c => decide (trimGo c ≠ [])
    { x with content := joinSep (str "\n\n") cs }

theorem collapseRun_nil (x : RenderItem) (hx : trimGo x.content ≠ []) :
    collapseRun x [] = x := by
  unfold collapseRun
  by_cases hu : isUserMessage x = true
  · simp [hu]
  · simp [hu, hx, joinSep]

theorem collapseRun_step (c i : RenderItem) (ys : List RenderItem)
    (hkey : sameKey c i = true) (hc : trimGo c.content ≠ []) (hi : trimGo i.content ≠ []) :
    collapseRun c (i :: ys) = collapseRun (mergeStep c i) ys := by
  by_cases hu : isUserMessage c = true
  · have hstep : mergeStep c i =
        { c with content := i.content, line := i.line, timestamp := i.timestamp,
                 raw := i.raw } := by
      unfold mergeStep
      rw [if_pos hu]
    have huser2 : isUserMessage (mergeStep c i) = true := by rw [mergeStep_user, hu]
    unfold collapseRun
    rw [if_pos hu, if_pos huser2]
    cases ys with
    | nil =>
      simp [hstep, List.getLastD_cons]
    | cons z zs =>
      simp [hstep, List.getLastD_cons, List.getLast?_cons]
  · have hu' : isUserMessage c = false := eq_false_of_ne_true hu
    have hstep : mergeStep c i = { c with content := c.content ++ str "\n\n" ++ i.content } := by
      unfold mergeStep
      rw [if_neg hu, if_pos hi, if_pos hc]
    have huser2 : isUserMessage (mergeStep c i) = false := by rw [mergeStep_user, hu']
    unfold collapseRun
    rw [if_neg hu, if_neg (by rw [huser2]; exact Bool.false_ne_true)]
    rw [hstep]
    have hcat : trimGo (c.content ++ str "\n\n" ++ i.content) ≠ [] := by
      rw [List.append_assoc]
      exact trimGo_append_ne _ _ (trimGo_append_ne _ _ hi)
    have hfilter1 : ((c.content :: i.content :: ys.map RenderItem.content).filter
        fun s => decide (trimGo s ≠ [])) =
        c.content :: i.content ::
          ((ys.map RenderItem.content).filter fun s => decide (trimGo s ≠ [])) := by
      rw [List.filter_cons, List.filter_cons]
      simp [hc, hi]
    have hfilter2 : (((c.content ++ str "\n\n" ++ i.content) :: ys.map RenderItem.content).filter
        fun s => decide (trimGo s ≠ [])) =
        (c.content ++ str "\n\n" ++ i.content) ::
          ((ys.map RenderItem.content).filter fun s => decide (trimGo s ≠ [])) := by
      have hcatR : trimGo (c.content ++ (str "\n\n" ++ i.content)) ≠ [] :=
        trimGo_append_ne _ _ (trimGo_append_ne _ _ hi)
      rw [List.filter_cons]
      simp [hcatR]
    dsimp only
    rw [List.map_cons, hfilter1, hfilter2, joinSep_cons_cons]

/-- Maximal runs of adjacent same-key entries, as (head, tail) pairs in
order. -/
def chunkRuns : List RenderItem → List (RenderItem × List RenderItem)
  | [] => []
  | x :: xs =>
    match chunkRuns xs with
    | [] => [(x, [])]
    | (y, ys) :: rest =>
      if sameKey x y then (x, y :: ys) :: rest else (x, []) :: (y, ys) :: rest

/-- Collapse an accumulated entry `c` against the chunking of the
remaining items: `c` absorbs the first chunk when it continues `c`'s
run. -/
def collapseChunks (c : RenderItem) (chunks : List (RenderItem × List RenderItem)) :
    List RenderItem :=
  match chunks with
  | [] => [collapseRun c []]
  | (y, ys) :: rest =>
    if sameKey c y then
      collapseRun c (y :: ys) :: (rest.map fun p => collapseRun p.1 p.2)
    else
      collapseRun c [] :: (((y, ys) :: rest).map fun p => collapseRun p.1 p.2)

theorem collapseChunks_cons (i : RenderItem) (rest : List RenderItem) :
    collapseChunks i (chunkRuns rest) =
      (chunkRuns (i :: rest)).map fun p => collapseRun p.1 p.2 := by
  cases h : chunkRuns rest with
  | nil => simp [collapseChunks, chunkRuns, h]
  | cons p r =>
    obtain ⟨y, ys⟩ := p
    by_cases hk : sameKey i y = true
    · simp [collapseChunks, chunkRuns, h, hk]
    · simp [collapseChunks, chunkRuns, h, hk]

theorem mergeStep_content_ne (c i : RenderItem)
    (hc : trimGo c.content ≠ []) (hi : trimGo i.content ≠ []) :
    trimGo (mergeStep c i).content ≠ [] := by
  unfold mergeStep
  split_ifs
  · simpa using hi
  · simpa using trimGo_append_ne (c.content ++ str "\n\n") i.content hi

theorem collapseChunks_step (c i : RenderItem) (rest : List RenderItem)
    (hkey : sameKey c i = true) (hc : trimGo c.content ≠ []) (hi : trimGo i.content ≠ []) :
    collapseChunks (mergeStep c i) (chunkRuns rest) = collapseChunks c (chunkRuns (i :: rest)) := by
  have hstep_ne : trimGo (mergeStep c i).content ≠ [] := mergeStep_content_ne c i hc hi
  have hcollapse1 : collapseRun c [i] = mergeStep c i := by
    rw [collapseRun_step c i [] hkey hc hi]
    exact collapseRun_nil _ hstep_ne
  cases h : chunkRuns rest with
  | nil =>
    simp [collapseChunks, chunkRuns, h, hkey, collapseRun_nil _ hstep_ne, hcollapse1]
  | cons p r =>
    obtain ⟨y, ys⟩ := p
    have hshift : sameKey c y = sameKey i y := sameKey_shift c i hkey y
    have hms : sameKey (mergeStep c i) y = sameKey c y := mergeStep_sameKey c i y
    by_cases hk2 : sameKey i y = true
    · have hcy : sameKey c y = true := by rw [hshift]; exact hk2
      have hmsy : sameKey (mergeStep c i) y = true := by rw [hms]; exact hcy
      have habsorb : collapseRun c (i :: y :: ys) = collapseRun (mergeStep c i) (y :: ys) :=
        collapseRun_step c i (y :: ys) hkey hc hi
      simp [collapseChunks, chunkRuns, h, hk2, hkey, hmsy, habsorb]
    · have hcy : sameKey c y = false := by rw [hshift]; exact eq_false_of_ne_true hk2
      have hmsy : sameKey (mergeStep c i) y = false := by rw [hms]; exact hcy
      simp [collapseChunks, chunkRuns, h, hk2, hkey, hmsy,
        collapseRun_nil _ hstep_ne, hcollapse1]

theorem mergeAux_eq_collapseChunks :
    ∀ (xs : List RenderItem) (c : RenderItem), trimGo c.content ≠ [] →
      (∀ i ∈ xs, trimGo i.content ≠ []) →
      mergeConsecutiveAux c (isUserMessage c) xs = collapseChunks c (chunkRuns xs) := by
  intro xs
  induction xs with
  | nil =>
    intro c hc _
    simp [mergeConsecutiveAux, chunkRuns, collapseChunks, collapseRun_nil c hc]
  | cons i rest ih =>
    intro c hc hall
    have hi : trimGo i.content ≠ [] := hall i (by simp)
    have hrest : ∀ j ∈ rest, trimGo j.content ≠ [] := fun j hj => hall j (by simp [hj])
    by_cases hkey : sameKey c i = true
    · rw [mergeAux_step c i rest hkey]
      rw [show isUserMessage c = isUserMessage (mergeStep c i) from (mergeStep_user c i).symm]
      rw [ih (mergeStep c i) (mergeStep_content_ne c i hc hi) hrest]
      exact collapseChunks_step c i rest hkey hc hi
    · conv_lhs => rw [mergeConsecutiveAux]
      rw [if_neg hkey]
      rw [ih i hi hrest]
      rw [collapseChunks_cons i rest]
      cases h : chunkRuns rest with
      | nil =>
        simp [chunkRuns, h, collapseChunks, hkey, collapseRun_nil c hc]
      | cons p r =>
        obtain ⟨y, ys⟩ := p
        by_cases hk2 : sameKey i y = true
        · simp [chunkRuns, h, hk2, collapseChunks, hkey, collapseRun_nil c hc]
        · simp [chunkRuns, h, hk2, collapseChunks, hkey, collapseRun_nil c hc]

/-- Claim C5: the merge step collapses every maximal run of adjacent
entries sharing identical (type, subtype, role) into a single entry,
never reordering; a run of user messages becomes one entry carrying the
last message's content, line number and timestamp (and raw line), and
any other run concatenates its non-empty contents in order with a
blank-line separator.  The hypothesis records that parser-produced
entries always have trim-non-empty content (empty content is replaced
by "(empty)" before merging). -/
theorem mergeConsecutive_runs (items : List RenderItem)
    (h : ∀ i ∈ items, trimGo i.content ≠ []) :
    mergeConsecutive items = (chunkRuns items).map fun p => collapseRun p.1 p.2 := by
  cases items with
  | nil => rfl
  | cons first rest =>
    have h1 : trimGo first.content ≠ [] := h first (by simp)
    have h2 : ∀ i ∈ rest, trimGo i.content ≠ [] := fun i hi => h i (by simp [hi])
    rw [show mergeConsecutive (first :: rest) =
          mergeConsecutiveAux first (isUserMessage first) rest from rfl]
    rw [mergeAux_eq_collapseChunks rest first h1 h2]
    exact collapseChunks_cons first rest

/-- A first user message, later resubmitted. -/
def u1 : RenderItem :=
  { line := 1, timestamp := str "t1", typ := str "response_item", subtype := str "message",
    role := str "user", title := str "User", content := str "Earlier",
    raw := str "r1", cls := str "role-user" }

/-- The resubmitted user message adjacent to `u1`. -/
def u2 : RenderItem :=
  { line := 2, timestamp := str "t2", typ := str "response_item", subtype := str "message",
    role := str "user", title := str "User", content := str "Later",
    raw := str "r2", cls := str "role-user" }

/-- An adjacent reasoning entry with a different key. -/
def r1 : RenderItem :=
  { line := 3, timestamp := str "t3", typ := str "response_item", subtype := str "reasoning",
    role := str "assistant", title := str "Reasoning", content := str "Reason",
    raw := str "r3", cls := str "role-assistant" }

/-- Witness for C5 on a concrete timeline with a two-message user run
followed by a reasoning entry. -/
theorem mergeConsecutive_runs_witness :
    mergeConsecutive [u1, u2, r1] =
      (chunkRuns [u1, u2, r1]).map fun p => collapseRun p.1 p.2 :=
  mergeConsecutive_runs [u1, u2, r1] (by decide)

theorem mergeAux_head :
    ∀ (xs : List RenderItem) (c : RenderItem) (u : Bool),
      ∃ h t, mergeConsecutiveAux c u xs = h :: t ∧
        h.typ = c.typ ∧ h.subtype = c.subtype ∧ h.role = c.role := by
  intro xs
  induction xs with
  | nil => intro c u; exact ⟨c, [], rfl, rfl, rfl, rfl⟩
  | cons i rest ih =>
    intro c u
    rw [mergeConsecutiveAux]
    by_cases hkey : sameKey c i = true
    · rw [if_pos hkey]
      by_cases hcond : (u && isUserMessage i) = true
      · rw [if_pos hcond]
        obtain ⟨h, t, heq, k1, k2, k3⟩ := ih _ u
        exact ⟨h, t, heq, by simpa using k1, by simpa using k2, by simpa using k3⟩
      · rw [if_neg hcond]
        by_cases hi : trimGo i.content ≠ []
        · by_cases hc : trimGo c.content ≠ []
          · rw [if_pos hi, if_pos hc]
            obtain ⟨h, t, heq, k1, k2, k3⟩ := ih _ u
            exact ⟨h, t, heq, by simpa using k1, by simpa using k2, by simpa using k3⟩
          · rw [if_pos hi, if_neg hc]
            obtain ⟨h, t, heq, k1, k2, k3⟩ := ih _ u
            exact ⟨h, t, heq, by simpa using k1, by simpa using k2, by simpa using k3⟩
        · rw [if_neg hi]
          exact ih c u
    · rw [if_neg hkey]
      exact ⟨c, _, rfl, rfl, rfl, rfl⟩

theorem mergeAux_chain :
    ∀ (xs : List RenderItem) (c : RenderItem) (u : Bool),
      List.Chain' (fun a b => sameKey a b = false) (mergeConsecutiveAux c u xs) := by
  intro xs
  induction xs with
  | nil => intro c u; simp [mergeConsecutiveAux]
  | cons i rest ih =>
    intro c u
    rw [mergeConsecutiveAux]
    by_cases hkey : sameKey c i = true
    · rw [if_pos hkey]
      by_cases hcond : (u && isUserMessage i) = true
      · rw [if_pos hcond]; exact ih _ u
      · rw [if_neg hcond]
        by_cases hi : trimGo i.content ≠ []
        · by_cases hc : trimGo c.content ≠ []
          · rw [if_pos hi, if_pos hc]; exact ih _ u
          · rw [if_pos hi, if_neg hc]; exact ih _ u
        · rw [if_neg hi]; exact ih c u
    · rw [if_neg hkey]
      rw [List.chain'_cons']
      refine ⟨?_, ih i (isUserMessage i)⟩
      intro y hy
      obtain ⟨h, t, heq, k1, k2, k3⟩ := mergeAux_head rest i (isUserMessage i)
      rw [heq] at hy
      simp only [List.head?_cons, Option.mem_def, Option.some.injEq] at hy
      have hck : sameKey c y = sameKey c i := by
        unfold sameKey
        rw [← hy, k1, k2, k3]
      rw [hck]
      exact eq_false_of_ne_true hkey

theorem mergeAux_fixed :
    ∀ (xs : List RenderItem) (c : RenderItem) (u : Bool),
      List.Chain' (fun a b => sameKey a b = false) (c :: xs) →
      mergeConsecutiveAux c u xs = c :: xs := by
  intro xs
  induction xs with
  | nil => intro c u _; rfl
  | cons i rest ih =>
    intro c u hch
    obtain ⟨hab, htail⟩ := List.chain'_cons.mp hch
    rw [mergeConsecutiveAux, if_neg (by rw [hab]; exact Bool.false_ne_true)]
    rw [ih i (isUserMessage i) htail]

/-- Claim C10: in `mergeConsecutive`'s output no two adjacent entries
share an identical (type, subtype, role) key, and consequently applying
`mergeConsecutive` to its own output returns it unchanged, for every
input list. -/
theorem mergeConsecutive_idempotent (items : List RenderItem) :
    List.Chain' (fun a b => sameKey a b = false) (mergeConsecutive items) ∧
    mergeConsecutive (mergeConsecutive items) = mergeConsecutive items := by
  cases items with
  | nil => exact ⟨List.chain'_nil, rfl⟩
  | cons first rest =>
    have hch := mergeAux_chain rest first (isUserMessage first)
    refine ⟨hch, ?_⟩
    obtain ⟨h, t, heq, _, _, _⟩ := mergeAux_head rest first (isUserMessage first)
    rw [show mergeConsecutive (first :: rest) =
          mergeConsecutiveAux first (isUserMessage first) rest from rfl]
    rw [heq]
    rw [show mergeConsecutive (h :: t) = mergeConsecutiveAux h (isUserMessage h) t from rfl]
    have hch2 : List.Chain' (fun a b => sameKey a b = false) (h :: t) := heq ▸ hch
    exact mergeAux_fixed t h (isUserMessage h) hch2

/-! ## User-request trimming (claim C7) -/

/-- The fixed marker Go `trimUserRequest` searches for. -/
def trimMarker : Str := str "## My request for Codex:"

/-- Go `trimUserRequest`; the boot-time global `trimUserRequestEnabled`
is modelled as an explicit parameter (it is set once at startup). -/
def trimUserRequest (trimUserRequestEnabled : Bool) (content : Str) : Str :=
  if !trimUserRequestEnabled then content
  else
    match strIndex content trimMarker with
    | none => content
    | some index => trimGo (content.drop (index + trimMarker.length))

theorem isPrefixOf_iff_exists (xs : Str) :
    ∀ ys : Str, xs.isPrefixOf ys = true ↔ ∃ t, ys = xs ++ t := by
  induction xs with
  | nil =>
    intro ys
    simp [List.isPrefixOf]
  | cons c cs ih =>
    intro ys
    cases ys with
    | nil => simp [List.isPrefixOf]
    | cons d ds =>
      simp only [List.isPrefixOf, Bool.and_eq_true, beq_iff_eq, List.cons_append,
        List.cons.injEq]
      rw [ih ds]
      constructor
      · intro ⟨hcd, t, ht⟩
        exact ⟨t, hcd.symm, ht⟩
      · intro ⟨t, hdc, ht⟩
        exact ⟨hdc.symm, t, ht⟩

theorem strIndexFrom_none (needle : Str) :
    ∀ (hay : Str) (i : Nat), strIndexFrom needle hay i = none →
      ∀ k, needle.isPrefixOf (hay.drop k) = false := by
  intro hay
  induction hay with
  | nil =>
    intro i h k
    unfold strIndexFrom at h
    by_cases he : needle.isEmpty = true
    · simp [he] at h
    · rw [List.drop_nil]
      cases needle with
      | nil => simp at he
      | cons a as => rfl
  | cons c rest ih =>
    intro i h k
    unfold strIndexFrom at h
    by_cases hp : needle.isPrefixOf (c :: rest) = true
    · simp [hp] at h
    · rw [if_neg hp] at h
      cases k with
      | zero => exact eq_false_of_ne_true hp
      | succ k2 =>
        rw [List.drop_succ_cons]
        exact ih (i + 1) h k2

theorem strIndexFrom_some (needle : Str) :
    ∀ (hay : Str) (i j : Nat), strIndexFrom needle hay i = some j →
      i ≤ j ∧ needle.isPrefixOf (hay.drop (j - i)) = true ∧
        ∀ k < j - i, needle.isPrefixOf (hay.drop k) = false := by
  intro hay
  induction hay with
  | nil =>
    intro i j h
    unfold strIndexFrom at h
    by_cases he : needle.isEmpty = true
    · rw [if_pos he] at h
      obtain rfl : i = j := by injection h
      refine ⟨le_refl i, ?_, ?_⟩
      · rw [Nat.sub_self, List.drop_nil]
        cases needle with
        | nil => rfl
        | cons a as => simp at he
      · intro k hk
        omega
    · rw [if_neg he] at h
      cases h
  | cons c rest ih =>
    intro i j h
    unfold strIndexFrom at h
    by_cases hp : needle.isPrefixOf (c :: rest) = true
    · rw [if_pos hp] at h
      obtain rfl : i = j := by injection h
      refine ⟨le_refl i, ?_, ?_⟩
      · rw [Nat.sub_self, List.drop_zero]
        exact hp
      · intro k hk
        omega
    · rw [if_neg hp] at h
      obtain ⟨h1, h2, h3⟩ := ih (i + 1) j h
      refine ⟨by omega, ?_, ?_⟩
      · have heq : j - i = (j - (i + 1)) + 1 := by omega
        rw [heq, List.drop_succ_cons]
        exact h2
      · intro k hk
        cases k with
        | zero => exact eq_false_of_ne_true hp
        | succ k2 =>
          rw [List.drop_succ_cons]
          exact h3 k2 (by omega)

theorem strIndex_some_decomp (hay needle : Str) (j : Nat)
    (h : strIndex hay needle = some j) :
    hay = hay.take j ++ needle ++ hay.drop (j + needle.length) ∧
      ∀ k < j, needle.isPrefixOf (hay.drop k) = false := by
  obtain ⟨_, h2, h3⟩ := strIndexFrom_some needle hay 0 j h
  rw [Nat.sub_zero] at h2 h3
  obtain ⟨t, ht⟩ := (isPrefixOf_iff_exists needle (hay.drop j)).mp h2
  refine ⟨?_, h3⟩
  have hdrop : hay.drop (j + needle.length) = t := by
    rw [← List.drop_drop, ht, List.drop_left]
  rw [hdrop, List.append_assoc, ← ht, List.take_append_drop]

/-- Claim C7: with the trim flag disabled content always passes through
unchanged; with it enabled, content not containing the marker is
unchanged, while content containing it is cut to the portion after the
first occurrence of the marker with surrounding whitespace trimmed. -/
theorem trimUserRequest_spec (content : Str) :
    (trimUserRequest false content = content)
    ∧ ((∀ pre suf : Str, content ≠ pre ++ trimMarker ++ suf) →
        trimUserRequest true content = content)
    ∧ (∀ pre suf : Str, content = pre ++ trimMarker ++ suf →
        (∀ pre2 suf2 : Str, content = pre2 ++ trimMarker ++ suf2 →
          pre.length ≤ pre2.length) →
        trimUserRequest true content = trimGo suf) := by
  refine ⟨rfl, ?_, ?_⟩
  · intro hno
    unfold trimUserRequest
    cases hidx : strIndex content trimMarker with
    | none => simp
    | some j =>
      obtain ⟨hdecomp, _⟩ := strIndex_some_decomp content trimMarker j hidx
      exact absurd hdecomp (hno _ _)
  · intro pre suf hdec hmin
    have hocc : trimMarker.isPrefixOf (content.drop pre.length) = true := by
      rw [hdec, List.append_assoc, List.drop_left]
      exact (isPrefixOf_iff_exists _ _).mpr ⟨suf, rfl⟩
    cases hidx : strIndex content trimMarker with
    | none =>
      rw [strIndexFrom_none trimMarker content 0 hidx pre.length] at hocc
      cases hocc
    | some j =>
      obtain ⟨hdecomp, hfirst⟩ := strIndex_some_decomp content trimMarker j hidx
      have hj_le : j ≤ pre.length := by
        by_contra hgt
        push_neg at hgt
        rw [hfirst pre.length hgt] at hocc
        cases hocc
      have hlen_content : pre.length ≤ content.length := by
        rw [hdec]
        simp only [List.length_append]
        omega
      have hlen_take : (content.take j).length = j := by
        rw [List.length_take]
        omega
      have hple : pre.length ≤ j := by
        have := hmin (content.take j) (content.drop (j + trimMarker.length)) hdecomp
        omega
      have hj : j = pre.length := le_antisymm hj_le hple
      have hdropsuf : content.drop (j + trimMarker.length) = suf := by
        have hlenpm : pre.length + trimMarker.length = (pre ++ trimMarker).length :=
          (List.length_append _ _).symm
        rw [hj, hlenpm, hdec]
        exact List.drop_left _ _
      unfold trimUserRequest
      rw [hidx]
      simpa using hdropsuf ▸ rfl

/-- A decidable bound suffices to rule out every marker decomposition. -/
theorem no_marker_of_bounded (content : Str)
    (h : ∀ k, k ≤ content.length → trimMarker.isPrefixOf (content.drop k) = false) :
    ∀ pre suf : Str, content ≠ pre ++ trimMarker ++ suf := by
  intro pre suf hdec
  have hlen : pre.length ≤ content.length := by
    rw [hdec]
    simp only [List.length_append]
    omega
  have hocc : trimMarker.isPrefixOf (content.drop pre.length) = true := by
    rw [hdec, List.append_assoc, List.drop_left]
    exact (isPrefixOf_iff_exists _ _).mpr ⟨suf, rfl⟩
  rw [h pre.length hlen] at hocc
  cases hocc

/-- A decidable bound suffices for the first-occurrence minimality
hypothesis. -/
theorem first_occurrence_of_bounded (content pre : Str)
    (h : ∀ k < pre.length, trimMarker.isPrefixOf (content.drop k) = false) :
    ∀ pre2 suf2 : Str, content = pre2 ++ trimMarker ++ suf2 → pre.length ≤ pre2.length := by
  intro pre2 suf2 hdec
  by_contra hgt
  push_neg at hgt
  have hocc : trimMarker.isPrefixOf (content.drop pre2.length) = true := by
    rw [hdec, List.append_assoc, List.drop_left]
    exact (isPrefixOf_iff_exists _ _).mpr ⟨suf2, rfl⟩
  rw [h pre2.length hgt] at hocc
  cases hocc

/-- Concrete user content carrying the marker after a prefix. -/
def cMark : Str := str "intro ## My request for Codex: do the thing "

/-- Witness for C7: flag off passes through; marker-free content passes
through with the flag on; marked content is cut after the marker and
trimmed. -/
theorem trimUserRequest_spec_witness :
    trimUserRequest false cMark = cMark ∧
    trimUserRequest true (str "no marker here") = str "no marker here" ∧
    trimUserRequest true cMark = trimGo (str " do the thing ") :=
  ⟨(trimUserRequest_spec cMark).1,
   (trimUserRequest_spec (str "no marker here")).2.1
     (no_marker_of_bounded _ (by decide)),
   (trimUserRequest_spec cMark).2.2 (str "intro ") (str " do the thing ")
     (by decide)
     (first_occurrence_of_bounded _ _ (by decide))⟩

end CodexManager













